import Mathlib

/-!
Shallow embedding of the Huffman codec of this repository: the encoder
(src/encoder.c) and the decoder (src/decoder.c).

Conventions of the embedding:
* A byte is a `Nat` below 256; an input file is a `List Nat` of bytes.
* C `long` counters are modelled as `Nat` on the encoder side (they only
  ever accumulate) and as `Int` on the decoder side, where `sscanf` with
  "%ld" can produce negative values.
* The two floating-point columns of a codebook row (probability and
  self-information, printed with "%.15f") are abstracted as formatting
  functions producing byte strings: the decoder never uses their values,
  it only requires them to match the "%lf" shape, so theorems quantify
  over the formatter.
* File streams are abstracted away, as in the specification: the encoder
  maps the input bytes to (codebook lines, payload bytes, exit code) and
  the decoder maps (codebook lines, payload bytes) to (output bytes,
  exit code).  `fgets` line splitting is modelled by passing the list of
  lines directly; the encoder terminates every line with a newline and
  never writes an interior newline (the newline byte is escaped), so the
  two views agree.
-/

namespace HuffSpec

/-- Huffman tree node of encoder.c.  The C `struct Node` distinguishes a
leaf from an internal node by null children; `prob` and `code` are computed
in separate passes and are modelled separately. -/
inductive Node where
  | leaf (symbol : Nat) (count : Nat)
  | internal (count : Nat) (left right : Node)
deriving DecidableEq

/-- Count stored in a node: a leaf carries its symbol frequency, an internal
node the sum of its children's counts (encoder.c lines 250-272). -/
def Node.count : Node → Nat
  | .leaf _ c => c
  | .internal c _ _ => c

/-- Default node used for out-of-range heap reads (never reached on the
index ranges the C code uses). -/
def dNode : Node := Node.leaf 0 0

/-- Swap of two heap slots, as done inline in heap_push / heap_pop. -/
def hswap (h : List Node) (i j : Nat) : List Node :=
  let a := h.getD i dNode
  let b := h.getD j dNode
  (h.set i b).set j a

/-- Sift-up loop of heap_push (encoder.c lines 62-71), on a 0-based list:
slot `j` here is C slot `j+1`, so the parent of `j` is `(j-1)/2`.  The C
loop strictly decreases `i`, so `fuel = initial index + 1` iterations are
always enough; the fuel only discharges termination. -/
def siftUpF : Nat → List Node → Nat → List Node
  | 0, h, _ => h
  | fuel + 1, h, j =>
    if j = 0 then h
    else
      let pj := (j - 1) / 2
      if (h.getD j dNode).count < (h.getD pj dNode).count then
        siftUpF fuel (hswap h j pj) pj
      else h

/-- heap_push: append the node and sift it up. -/
def heapPush (h : List Node) (n : Node) : List Node :=
  siftUpF (h.length + 1) (h ++ [n]) h.length

/-- Sift-down loop of heap_pop (encoder.c lines 78-95), 0-based: children
of slot `i` are `2i+1` and `2i+2`.  `i` strictly increases and stays below
the length, so `length + 1` fuel is always enough. -/
def siftDownF : Nat → List Node → Nat → List Node
  | 0, h, _ => h
  | fuel + 1, h, i =>
    let l := 2 * i + 1
    let r := 2 * i + 2
    let m1 := if l < h.length ∧ (h.getD l dNode).count < (h.getD i dNode).count then l else i
    let m2 := if r < h.length ∧ (h.getD r dNode).count < (h.getD m1 dNode).count then r else m1
    if m2 = i then h else siftDownF fuel (hswap h i m2) m2

/-- heap_pop: return the root, move the last slot to the root and sift it
down.  When the heap has one element the C code moves the root onto itself
and shrinks to size 0, which the `dropLast`/`set` form reproduces. -/
def heapPop (h : List Node) : Option Node × List Node :=
  match h with
  | [] => (none, [])
  | x :: rest =>
    let h2 := ((x :: rest).dropLast).set 0 ((x :: rest).getLastD x)
    (some x, siftDownF (h2.length + 1) h2 0)

/-- One iteration of the merge loop (encoder.c lines 263-274): pop the two
minima and push an internal node carrying the sum of their counts. -/
def huffStep (h : List Node) : List Node :=
  match heapPop h with
  | (some a, h1) =>
    match heapPop h1 with
    | (some b, h2) => heapPush h2 (Node.internal (a.count + b.count) a b)
    | (none, _) => h1
  | (none, _) => h

/-- Merge loop `while (heapSize > 1)`.  Every iteration removes two nodes
and adds one, so the initial heap size bounds the iteration count; the
fuel argument only discharges termination. -/
def huffLoopFuel : Nat → List Node → List Node
  | 0, h => h
  | fuel + 1, h => if h.length ≤ 1 then h else huffLoopFuel fuel (huffStep h)

/-- Frequency table `freq[b]` (encoder.c lines 208-211). -/
def countByte (input : List Nat) (b : Nat) : Nat := input.count b

/-- total_count: number of input bytes. -/
def totalCount (input : List Nat) : Nat := input.length

/-- Symbols with nonzero frequency, in ascending order — the order in which
encoder.c lines 248-260 create and push the leaves. -/
def occurring (input : List Nat) : List Nat :=
  (List.range 256).filter (fun b => 0 < countByte input b)

/-- Leaf nodes pushed into the heap, in ascending symbol order. -/
def leaves (input : List Nat) : List Node :=
  (occurring input).map (fun b => Node.leaf b (countByte input b))

/-- Heap after all leaves are pushed. -/
def buildHeap (input : List Nat) : List Node :=
  (leaves input).foldl heapPush []

/-- Huffman tree root: run the merge loop, then the final heap_pop
(encoder.c line 276).  `none` only for empty input (never reached: the
empty case short-circuits earlier). -/
def buildTree (input : List Nat) : Option Node :=
  (heapPop (huffLoopFuel (buildHeap input).length (buildHeap input))).1

/-- generate_codes (encoder.c lines 101-123): walk the tree accumulating
"0" on the left and "1" on the right (`false` = '0', `true` = '1'); a leaf
reached with the empty prefix — a single-symbol alphabet — gets "0".
Buffers never truncate: a strict binary tree on at most 256 leaves has
depth at most 255, within the 256-byte code buffers. -/
def genCodes : Node → List Bool → List (Nat × List Bool)
  | .leaf s _, pre => [(s, if pre = [] then [false] else pre)]
  | .internal _ l r, pre =>
      genCodes l (pre ++ [false]) ++ genCodes r (pre ++ [true])

/-- Symbol-to-code table produced by the code-assignment walk. -/
def codeTable (input : List Nat) : List (Nat × List Bool) :=
  match buildTree input with
  | some t => genCodes t []
  | none => []

/-- Code of one symbol, as read back from `leaf_nodes[b]->code`: the walk
stores each occurring symbol's code in its unique leaf node, which the
table lookup reproduces. -/
def codeOf (input : List Nat) (b : Nat) : List Bool :=
  ((codeTable input).lookup b).getD []

/-- Codebook entries (symbol, count, code) before sorting, in ascending
symbol order (node_list, encoder.c lines 282-290). -/
def entries (input : List Nat) : List (Nat × Nat × List Bool) :=
  (occurring input).map (fun b => (b, countByte input b, codeOf input b))

/-- Ordering of compare_nodes (encoder.c lines 136-145): ascending count,
ties by ascending symbol. -/
def entLe (a b : Nat × Nat × List Bool) : Prop :=
  a.2.1 < b.2.1 ∨ (a.2.1 = b.2.1 ∧ a.1 ≤ b.1)

instance : DecidableRel entLe := fun a b =>
  inferInstanceAs (Decidable (a.2.1 < b.2.1 ∨ (a.2.1 = b.2.1 ∧ a.1 ≤ b.1)))

/-- Sorted codebook entries (qsort with compare_nodes; the comparator is a
total order on entries with pairwise distinct symbols, so any comparison
sort yields this list). -/
def sortedEntries (input : List Nat) : List (Nat × Nat × List Bool) :=
  List.insertionSort entLe (entries input)

/-- print_symbol (encoder.c lines 149-164): newline, tab, carriage return,
double quote and backslash are written as two-character escapes inside the
quotes; every other byte — including NUL — is written literally. -/
def printSymbol (s : Nat) : List Nat :=
  if s = 10 then [34, 92, 110, 34]
  else if s = 9 then [34, 92, 116, 34]
  else if s = 13 then [34, 92, 114, 34]
  else if s = 34 then [34, 92, 34, 34]
  else if s = 92 then [34, 92, 92, 34]
  else [34, s, 34]

/-- Decimal rendering of a count ("%ld", counts are positive).  The value
shrinks by a factor 10 each step, so `n + 1` fuel always suffices. -/
def decDigitsF : Nat → Nat → List Nat
  | 0, _ => []
  | fuel + 1, n => if n < 10 then [48 + n] else decDigitsF fuel (n / 10) ++ [48 + n % 10]

def decDigits (n : Nat) : List Nat := decDigitsF (n + 1) n

/-- Byte of one code character: '1' for a set bit, '0' otherwise. -/
def bitChar (b : Bool) : Nat := if b then 49 else 48

/-- One codebook row (encoder.c lines 329-334):
escaped symbol, ',', count, ',', probability, ',', '"', code, '"', ',',
self-information, newline.  `prob` and `si` are the "%.15f" renderings,
passed in as byte strings. -/
def codebookLine (sym count : Nat) (prob si : List Nat) (code : List Bool) : List Nat :=
  printSymbol sym ++ 44 :: decDigits count ++ 44 :: prob ++ 44 :: 34 ::
    code.map bitChar ++ 34 :: 44 :: si ++ [10]

/-- Bit-packing step (encoder.c lines 358-369): shift the bit into the
accumulator (an unsigned char, hence mod 256) and flush a byte whenever
8 bits have accumulated. -/
def pstep : Nat × Nat × List Nat → Bool → Nat × Nat × List Nat
  | (acc, cnt, out), bit =>
    let acc2 := (2 * acc + (if bit then 1 else 0)) % 256
    if cnt + 1 = 8 then (0, 0, out ++ [acc2]) else (acc2, cnt + 1, out)

/-- Bit packer: fold all bits, then zero-pad the final partial byte by
left-shifting it (encoder.c lines 374-377). -/
def packBits (bits : List Bool) : List Nat :=
  let st := bits.foldl pstep (0, 0, [])
  if st.2.1 = 0 then st.2.2 else st.2.2 ++ [st.1 * 2 ^ (8 - st.2.1) % 256]

/-- Concatenation of the codes of all input bytes, in order (the encode
pass re-reads the input and emits each byte's code). -/
def codesConcat (f : Nat → List Bool) : List Nat → List Bool
  | [] => []
  | c :: cs => f c ++ codesConcat f cs

/-- Encoded payload bytes. -/
def encPayload (input : List Nat) : List Nat :=
  packBits (codesConcat (codeOf input) input)

/-- Codebook lines, in sorted entry order; `fmtP count total` and
`fmtS count total` are the "%.15f" renderings of the probability and the
self-information of an entry. -/
def encLines (fmtP fmtS : Nat → Nat → List Nat) (input : List Nat) : List (List Nat) :=
  (sortedEntries input).map
    (fun e => codebookLine e.1 e.2.1 (fmtP e.2.1 (totalCount input))
      (fmtS e.2.1 (totalCount input)) e.2.2)

/-- Result of an encoder run on already-opened streams. -/
structure EncResult where
  lines : List (List Nat)
  payload : List Nat
  exitCode : Nat
deriving DecidableEq

/-- Encoder main (encoder.c lines 170-439) on its abstract streams: empty
input short-circuits to empty codebook and empty payload with exit 0
(lines 214-241); otherwise tree, codebook and payload are produced and the
run exits 0. -/
def encodeMain (fmtP fmtS : Nat → Nat → List Nat) (input : List Nat) : EncResult :=
  if totalCount input = 0 then ⟨[], [], 0⟩
  else ⟨encLines fmtP fmtS input, encPayload input, 0⟩

/-! ### Decoder model (src/decoder.c) -/

/-- Decode-tree node of decoder.c.  `empty` stands for a NULL pointer; a
fresh node from create_node is `node 0 false empty empty`. -/
inductive DTree where
  | empty : DTree
  | node (symbol : Nat) (isLeaf : Bool) (left right : DTree) : DTree
deriving DecidableEq

/-- Blank root created before reading the codebook (decoder.c line 144). -/
def blankRoot : DTree := DTree.node 0 false DTree.empty DTree.empty

/-- insert_code (decoder.c lines 54-67): walk the code bits, creating
missing children on demand, and mark the final position as a leaf holding
the symbol.  Codes come from the "%255[01]" scanset, so every character is
'0' or '1', modelled as `Bool` (`true` = '1'). -/
def insertCode : DTree → List Bool → Nat → DTree
  | t, [], s =>
    match t with
    | .empty => .node s true .empty .empty
    | .node _ _ l r => .node s true l r
  | t, bit :: bs, s =>
    match t with
    | .empty =>
      if bit then .node 0 false .empty (insertCode .empty bs s)
      else .node 0 false (insertCode .empty bs s) .empty
    | .node sym lf l r =>
      if bit then .node sym lf l (insertCode r bs s)
      else .node sym lf (insertCode l bs s) r

/-- Child selection of the decode walk: bit 0 goes left, bit 1 right. -/
def childOf (t : DTree) (bit : Bool) : DTree :=
  match t with
  | .empty => .empty
  | .node _ _ l r => if bit then r else l

def DTree.isLeafB : DTree → Bool
  | .empty => false
  | .node _ lf _ _ => lf

def DTree.symbolOf : DTree → Nat
  | .empty => 0
  | .node s _ _ _ => s

/-! #### Codebook line parsing -/

/-- Digit byte test ('0'-'9'). -/
def isDigitB (c : Nat) : Bool := 48 ≤ c && c ≤ 57

/-- Whitespace byte test as used by scanf (space and the C3 controls). -/
def isSpaceB (c : Nat) : Bool := c == 32 || (9 ≤ c && c ≤ 13)

/-- Value of a digit run, as accumulated by "%ld". -/
def digitsVal (ds : List Nat) : Nat :=
  ds.foldl (fun a c => 10 * a + (c - 48)) 0

/-- "%ld" conversion: skip whitespace, optional sign, then a nonempty run
of digits; fail otherwise. -/
def scanLong (s : List Nat) : Option (Int × List Nat) :=
  let s1 := s.dropWhile isSpaceB
  let neg := s1.headD 0 = 45
  let s2 := if s1.headD 0 = 45 ∨ s1.headD 0 = 43 then s1.tail else s1
  let ds := s2.takeWhile isDigitB
  if ds = [] then none
  else some (if neg then -(digitsVal ds : Int) else (digitsVal ds : Int), s2.drop ds.length)

/-- "%lf" conversion (value discarded by the decoder): skip whitespace,
optional sign, a mantissa with at least one digit (integer part, optional
dot, fraction part), and an optional well-formed exponent. -/
def scanFloat (s : List Nat) : Option (List Nat) :=
  let s1 := s.dropWhile isSpaceB
  let s2 := if s1.headD 0 = 45 ∨ s1.headD 0 = 43 then s1.tail else s1
  let ip := s2.takeWhile isDigitB
  let s3 := s2.drop ip.length
  let hasDot := s3.headD 0 = 46
  let fp := if hasDot then s3.tail.takeWhile isDigitB else []
  let s4 := if hasDot then s3.tail.drop fp.length else s3
  if ip = [] ∧ fp = [] then none
  else
    some (if s4.headD 0 = 101 ∨ s4.headD 0 = 69 then
      let s4a := s4.tail
      let s4b := if s4a.headD 0 = 45 ∨ s4a.headD 0 = 43 then s4a.tail else s4a
      let ed := s4b.takeWhile isDigitB
      if ed = [] then s4 else s4b.drop ed.length
    else s4)

/-- Literal character directive of the scanf format. -/
def expectChar (c : Nat) (s : List Nat) : Option (List Nat) :=
  match s with
  | [] => none
  | x :: r => if x = c then some r else none

/-- "%255[01]" scanset: up to 255 characters from {'0','1'}, at least one;
returns the code as bits. -/
def scanCode (s : List Nat) : Option (List Bool × List Nat) :=
  let run := (s.takeWhile (fun c => c == 48 || c == 49)).take 255
  if run = [] then none
  else some (run.map (fun c => c == 49), s.drop run.length)

/-- sscanf(p, "%ld,%lf,\"%255[01]\",%lf", ...) (decoder.c lines 163-164):
the row is accepted exactly when all four conversions succeed. -/
def parseRest (p : List Nat) : Option (Int × List Bool) := do
  let (count, r1) ← scanLong p
  let r2 ← expectChar 44 r1
  let r3 ← scanFloat r2
  let r4 ← expectChar 44 r3
  let r5 ← expectChar 34 r4
  let (code, r6) ← scanCode r5
  let r7 ← expectChar 34 r6
  let r8 ← expectChar 44 r7
  let _ ← scanFloat r8
  pure (count, code)

/-- parse_symbol (decoder.c lines 83-99) on the C string of the line:
index reads past the end of the string see the NUL terminator, modelled by
`getD _ 0`.  The returned `char` is modelled as its byte value. -/
def parseSymbol (s : List Nat) : Nat :=
  if s.getD 0 0 ≠ 34 then 0
  else if s.getD 1 0 = 92 then
    match s.getD 2 0 with
    | 110 => 10
    | 116 => 9
    | 114 => 13
    | 48 => 0
    | c => c
  else s.getD 1 0

/-- Processing of one fgets line (decoder.c lines 147-169): take the line
up to the first NUL (string functions stop there), read the symbol, find
the closing quote with strchr(line+1, '"') — skipping the line if absent —
step past it and an optional comma, and run the sscanf tail.  Returns
(symbol, count, code) for an accepted row, `none` for a skipped row. -/
def parseRow (rawLine : List Nat) : Option (Nat × Int × List Bool) :=
  let s := rawLine.takeWhile (fun c => c ≠ 0)
  let sym := parseSymbol s
  let t := s.drop 1
  match t.findIdx? (fun c => c == 34) with
  | none => none
  | some i =>
    let p0 := t.drop (i + 1)
    let p := if p0.headD 0 = 44 then p0.tail else p0
    match parseRest p with
    | none => none
    | some (count, code) => some (sym, count, code)

/-- One line of the codebook reading loop: an accepted row is inserted
into the tree and its count added to expected_symbols; a skipped row
changes nothing. -/
def rcStep (st : DTree × Int) (line : List Nat) : DTree × Int :=
  match parseRow line with
  | some (s, c, code) => (insertCode st.1 code s, st.2 + c)
  | none => st

/-- Codebook reading loop (decoder.c lines 147-169). -/
def readCodebook (cbLines : List (List Nat)) : DTree × Int :=
  cbLines.foldl rcStep (blankRoot, 0)

/-! #### Bit-level decode walk -/

/-- State of the decode loop: either still walking (current position,
decoded count, output so far, bits consumed) or failed on an invalid
codeword (1-based bit position, output so far).  `fail` absorbs further
input, matching the immediate `return 1` of decoder.c lines 203-215. -/
inductive DState where
  | run (cur : DTree) (num : Int) (out : List Nat) (pos : Nat) : DState
  | fail (pos : Nat) (out : List Nat) : DState
deriving DecidableEq

/-- One bit of the decode walk (decoder.c lines 197-223): while fewer than
`expected` symbols are decoded, advance the position (bit_position++ comes
before the move), fail if the child is absent, emit and restart at the
root on a leaf.  Once `expected` is reached the remaining bits are never
examined (the inner loop guard), modelled by leaving the state unchanged. -/
def stepBit (root : DTree) (expected : Int) (st : DState) (bit : Bool) : DState :=
  match st with
  | .fail p o => .fail p o
  | .run cur num out pos =>
    if num < expected then
      match childOf cur bit with
      | .empty => .fail (pos + 1) out
      | c =>
        if c.isLeafB then .run root (num + 1) (out ++ [c.symbolOf]) (pos + 1)
        else .run c num out (pos + 1)
    else st

/-- MSB-first bits of one payload byte ((byte >> b) & 1 for b = 7..0). -/
def byteBits (n : Nat) : List Bool :=
  [n.testBit 7, n.testBit 6, n.testBit 5, n.testBit 4,
   n.testBit 3, n.testBit 2, n.testBit 1, n.testBit 0]

def bytesToBits : List Nat → List Bool
  | [] => []
  | b :: bs => byteBits b ++ bytesToBits bs

/-- The whole decode walk over the payload bits. -/
def decodeBits (root : DTree) (expected : Int) (bits : List Bool) : DState :=
  bits.foldl (stepBit root expected) (.run root 0 [] 0)

/-- Decoder main (decoder.c lines 105-256) on its abstract streams: read
the codebook, walk the payload bits; an invalid codeword exits 1 keeping
the partial output, otherwise the run exits 0 exactly when the decoded
count meets expected_symbols. -/
def decodeMain (cbLines : List (List Nat)) (payload : List Nat) : List Nat × Nat :=
  let rc := readCodebook cbLines
  match decodeBits rc.1 rc.2 (bytesToBits payload) with
  | .fail _ out => (out, 1)
  | .run _ num out _ => (out, if num = rc.2 then 0 else 1)

/-! ### Derived quantities and specification-side notions -/

/-- One bit string is a prefix of another. -/
def listPre (a b : List Bool) : Prop := ∃ t, a ++ t = b

/-- Proper prefix: a prefix that is not the whole string. -/
def properPre (a b : List Bool) : Prop := listPre a b ∧ a ≠ b

/-- Mutual prefix-incomparability of two table entries. -/
def codesApart (e1 e2 : Nat × List Bool) : Prop :=
  ¬ properPre e1.2 e2.2 ∧ ¬ properPre e2.2 e1.2

/-- Total Huffman bits as the specification states them: the sum over the
occurring symbols of count times code length. -/
def specHuffBits (input : List Nat) : Nat :=
  ((occurring input).map (fun b => countByte input b * (codeOf input b).length)).sum

/-- distinct_count of encoder.c: number of distinct occurring symbols. -/
def distinctCount (input : List Nat) : Nat := (occurring input).length

/-- The `while (tmp > 0) { fixed_bits++; tmp >>= 1; }` loop of encoder.c
lines 390-394: number of halvings until zero.  The iteration count of the
loop on `n ≥ 1` is at most `n`, so the fuel only discharges termination. -/
def bitLenF : Nat → Nat → Nat
  | 0, _ => 0
  | fuel + 1, n => if n = 0 then 0 else bitLenF fuel (n / 2) + 1

/-- fixed_bits of encoder.c lines 389-395: bit length of
distinct_count - 1, forced to at least 1. -/
def fixedBits (input : List Nat) : Nat :=
  let bl := bitLenF (distinctCount input) (distinctCount input - 1)
  if bl = 0 then 1 else bl

/-- total_bits_huffman (encoder.c lines 297-310): accumulated over the
sorted codebook entries as code length times count. -/
def totalBitsHuffman (input : List Nat) : Nat :=
  ((sortedEntries input).map (fun e => e.2.2.length * e.2.1)).sum

/-- total_bits_fixed (encoder.c line 402). -/
def totalBitsFixed (input : List Nat) : Nat :=
  totalCount input * fixedBits input

/-- compression_ratio (encoder.c line 404), with the C doubles modelled as
exact rationals. -/
def compressionRatioQ (input : List Nat) : ℚ :=
  (totalBitsFixed input : ℚ) / (totalBitsHuffman input : ℚ)

/-- Shape of every "%.15f" rendering of the nonnegative finite doubles the
encoder prints: a nonempty digit string, a dot, a nonempty digit string. -/
def FixedDec (xs : List Nat) : Prop :=
  ∃ a b, xs = a ++ 46 :: b ∧ a ≠ [] ∧ b ≠ [] ∧
    (∀ c ∈ a, isDigitB c = true) ∧ (∀ c ∈ b, isDigitB c = true)

/-- Byte string of a Lean string literal (used for concrete rows). -/
def strBytes (s : String) : List Nat := s.toList.map Char.toNat

/-- Specification-side rendering of the symbol field: the five special
bytes as their two-character escape forms inside the quotes, any other
byte as the literal character. -/
def specRender (b : Nat) : List Nat :=
  if b = 10 then [34, 92, 110, 34]
  else if b = 9 then [34, 92, 116, 34]
  else if b = 13 then [34, 92, 114, 34]
  else if b = 34 then [34, 92, 34, 34]
  else if b = 92 then [34, 92, 92, 34]
  else [34, b, 34]

/-! ### Prefix-freeness of the assigned codes (claim C3) -/

theorem codesApart_symm : Symmetric codesApart := by
  intro a b h
  exact ⟨h.2, h.1⟩

/-- Every code assigned below a node extends the prefix the walk reached
that node with (for the root leaf the code "0" extends the empty prefix). -/
theorem genCodes_extends (t : Node) (pre : List Bool) :
    ∀ e ∈ genCodes t pre, ∃ suf, e.2 = pre ++ suf := by
  induction t generalizing pre with
  | leaf s c =>
    intro e he
    simp only [genCodes, List.mem_singleton] at he
    subst he
    by_cases hp : pre = []
    · exact ⟨[false], by simp [hp]⟩
    · exact ⟨[], by simp [hp]⟩
  | internal c l r ihl ihr =>
    intro e he
    simp only [genCodes, List.mem_append] at he
    rcases he with he | he
    · obtain ⟨suf, hs⟩ := ihl (pre ++ [false]) e he
      exact ⟨false :: suf, by simpa using hs⟩
    · obtain ⟨suf, hs⟩ := ihr (pre ++ [true]) e he
      exact ⟨true :: suf, by simpa using hs⟩

/-- Two bit strings that agree on a common prefix and then diverge are not
prefix-related. -/
theorem not_listPre_of_diverge (p : List Bool) (x y : Bool) (s1 s2 : List Bool)
    (hxy : x ≠ y) : ¬ listPre (p ++ x :: s1) (p ++ y :: s2) := by
  rintro ⟨t, ht⟩
  rw [List.append_assoc] at ht
  have := List.append_cancel_left ht
  simp only [List.cons_append, List.cons.injEq] at this
  exact hxy this.1

/-- The codes produced by one code-assignment walk are pairwise
prefix-incomparable: codes from the two subtrees of an internal node
diverge right after the shared prefix. -/
theorem genCodes_pairwise (t : Node) (pre : List Bool) :
    List.Pairwise codesApart (genCodes t pre) := by
  induction t generalizing pre with
  | leaf s c => simp [genCodes]
  | internal c l r ihl ihr =>
    simp only [genCodes, List.pairwise_append]
    refine ⟨ihl (pre ++ [false]), ihr (pre ++ [true]), ?_⟩
    intro e1 h1 e2 h2
    obtain ⟨s1, hs1⟩ := genCodes_extends l (pre ++ [false]) e1 h1
    obtain ⟨s2, hs2⟩ := genCodes_extends r (pre ++ [true]) e2 h2
    rw [List.append_assoc] at hs1 hs2
    simp only [List.singleton_append] at hs1 hs2
    constructor
    · intro hpp
      exact not_listPre_of_diverge pre false true s1 s2 (by simp)
        (hs1 ▸ hs2 ▸ hpp.1)
    · intro hpp
      exact not_listPre_of_diverge pre true false s2 s1 (by simp)
        (hs2 ▸ hs1 ▸ hpp.1)

/-- Claim C3: for every non-empty input, the codes assigned by the
encoder's code-assignment walk are prefix-free — for any two entries of
the code table with distinct symbols, neither code is a proper prefix of
the other. -/
theorem claim3_prefix_free (input : List Nat) (s t : Nat) (cs ct : List Bool)
    (hs : (s, cs) ∈ codeTable input) (ht : (t, ct) ∈ codeTable input)
    (hst : s ≠ t) : ¬ properPre cs ct ∧ ¬ properPre ct cs := by
  unfold codeTable at hs ht
  cases hroot : buildTree input with
  | none => rw [hroot] at hs; simp at hs
  | some root =>
    rw [hroot] at hs ht
    have hpw := genCodes_pairwise root []
    have hne : (s, cs) ≠ (t, ct) := by
      intro h
      exact hst (congrArg Prod.fst h)
    exact hpw.forall codesApart_symm hs ht hne

/-- Witness for claim C3: on input "ab" the table assigns "0" to 'a' and
"1" to 'b', and the two codes are prefix-incomparable. -/
theorem claim3_prefix_free_witness :
    (97, [false]) ∈ codeTable [97, 98] ∧ (98, [true]) ∈ codeTable [97, 98] ∧
      (97 ≠ 98) ∧
      (¬ properPre [false] [true] ∧ ¬ properPre [true] [false]) :=
  ⟨by decide, by decide, by decide,
    claim3_prefix_free [97, 98] 97 98 [false] [true] (by decide) (by decide)
      (by decide)⟩

/-! ### Bit packer arithmetic (claims C4 and C9) -/

/-- Invariant of the packing fold: as long as the pending-bit counter stays
below 8, it tracks the processed bit count mod 8 and one byte is emitted
per full group of 8 bits. -/
theorem packFold_spec : ∀ (bits : List Bool) (acc cnt : Nat) (out : List Nat), cnt < 8 →
    (bits.foldl pstep (acc, cnt, out)).2.1 = (cnt + bits.length) % 8 ∧
    (bits.foldl pstep (acc, cnt, out)).2.2.length = out.length + (cnt + bits.length) / 8 := by
  intro bits
  induction bits with
  | nil =>
    intro acc cnt out h
    simp [Nat.mod_eq_of_lt h, Nat.div_eq_of_lt h]
  | cons b bs ih =>
    intro acc cnt out h
    simp only [List.foldl_cons, pstep, List.length_cons]
    by_cases h8 : cnt + 1 = 8
    · rw [if_pos h8]
      obtain ⟨h1, h2⟩ := ih 0 0 (out ++ [(2 * acc + if b then 1 else 0) % 256]) (by omega)
      simp only [List.length_append, List.length_cons, List.length_nil] at h2
      exact ⟨by rw [h1]; omega, by rw [h2]; omega⟩
    · rw [if_neg h8]
      obtain ⟨h1, h2⟩ := ih ((2 * acc + if b then 1 else 0) % 256) (cnt + 1) out (by omega)
      exact ⟨by rw [h1]; omega, by rw [h2]; omega⟩

/-- The payload always holds exactly ceil(bits/8) bytes. -/
theorem packBits_length (bits : List Bool) :
    (packBits bits).length = (bits.length + 7) / 8 := by
  obtain ⟨h1, h2⟩ := packFold_spec bits 0 0 [] (by omega)
  simp only [List.length_nil, Nat.zero_add] at h1 h2
  unfold packBits
  by_cases hc : (bits.foldl pstep (0, 0, [])).2.1 = 0
  · rw [if_pos hc]
    rw [hc] at h1
    omega
  · rw [if_neg hc]
    rw [List.length_append, h2, List.length_singleton]
    omega

/-- When the bit count is not a multiple of 8, the final byte is the
left-shifted remainder, so its low 8 - (bits mod 8) bits are zero. -/
theorem packBits_getLast (bits : List Bool) (h : bits.length % 8 ≠ 0) :
    ∃ v, (packBits bits).getLast? = some v ∧ v % 2 ^ (8 - bits.length % 8) = 0 := by
  obtain ⟨h1, h2⟩ := packFold_spec bits 0 0 [] (by omega)
  simp only [List.length_nil, Nat.zero_add] at h1 h2
  unfold packBits
  have hc : (bits.foldl pstep (0, 0, [])).2.1 ≠ 0 := by omega
  rw [if_neg hc]
  set acc := (bits.foldl pstep (0, 0, [])).1 with hacc
  refine ⟨acc * 2 ^ (8 - bits.length % 8) % 256, ?_, ?_⟩
  · rw [h1, List.getLast?_concat]
  · have hdvd : 2 ^ (8 - bits.length % 8) ∣ 256 := by
      have h256 : (256 : Nat) = 2 ^ 8 := by norm_num
      rw [h256]
      exact Nat.pow_dvd_pow 2 (by omega)
    exact Nat.mod_eq_zero_of_dvd ((Nat.dvd_mod_iff hdvd).2 (dvd_mul_left _ acc))

/-! ### Counting sums -/

/-- Total length of the concatenated codes. -/
theorem codesConcat_length (f : Nat → List Bool) :
    ∀ l : List Nat, (codesConcat f l).length = (l.map (fun c => (f c).length)).sum := by
  intro l
  induction l with
  | nil => simp [codesConcat]
  | cons c cs ih => simp [codesConcat, ih]

/-- Bridge between a mapped sum over `List.range` and a `Finset.range`
sum. -/
theorem listRange_map_sum (n : Nat) (f : Nat → Nat) :
    ((List.range n).map f).sum = ∑ i ∈ Finset.range n, f i := by
  induction n with
  | zero => simp
  | succ m ih => rw [List.range_succ, Finset.sum_range_succ]; simp [ih]

/-- Grouping a per-byte sum by symbol value. -/
theorem input_sum_by_symbol (g : Nat → Nat) :
    ∀ input : List Nat, (∀ c ∈ input, c < 256) →
    (input.map g).sum = ∑ b ∈ Finset.range 256, countByte input b * g b := by
  intro input
  induction input with
  | nil => simp [countByte]
  | cons c cs ih =>
    intro h
    have hc : c < 256 := h c (by simp)
    have hcs : ∀ x ∈ cs, x < 256 := fun x hx => h x (by simp [hx])
    have hcount : ∀ b, countByte (c :: cs) b = countByte cs b + if b = c then 1 else 0 := by
      intro b
      by_cases hbc : b = c
      · subst hbc; simp [countByte, List.count_cons]
      · simp [countByte, List.count_cons, hbc, Ne.symm hbc]
    have hterm : ∀ b, countByte (c :: cs) b * g b
        = countByte cs b * g b + if b = c then g b else 0 := by
      intro b
      rw [hcount b, Nat.add_mul]
      by_cases hbc : b = c <;> simp [hbc]
    calc ((c :: cs).map g).sum = (cs.map g).sum + g c := by simp [Nat.add_comm]
      _ = (∑ b ∈ Finset.range 256, countByte cs b * g b) + g c := by rw [ih hcs]
      _ = ∑ b ∈ Finset.range 256, countByte (c :: cs) b * g b := by
          simp only [hterm, Finset.sum_add_distrib, Finset.sum_ite_eq', Finset.mem_range]
          simp [hc]

/-- Terms at non-occurring symbols vanish, so a full-range sum equals the
sum over the occurring symbols. -/
theorem filter_map_sum (l : List Nat) (p : Nat → Bool) (f : Nat → Nat)
    (h : ∀ x ∈ l, p x = false → f x = 0) :
    ((l.filter p).map f).sum = (l.map f).sum := by
  induction l with
  | nil => simp
  | cons c cs ih =>
    have hcs : ∀ x ∈ cs, p x = false → f x = 0 := fun x hx => h x (by simp [hx])
    by_cases hp : p c
    · simp [List.filter_cons, hp, ih hcs]
    · simp only [List.filter_cons, Bool.not_eq_true] at *
      rw [if_neg (by simp [hp])]
      simp [ih hcs, h c (by simp) (by simpa using hp)]

/-- The bit stream emitted by the encode pass has exactly `specHuffBits`
bits. -/
theorem codesConcat_eq_specHuffBits (input : List Nat) (hlt : ∀ c ∈ input, c < 256) :
    (codesConcat (codeOf input) input).length = specHuffBits input := by
  rw [codesConcat_length, input_sum_by_symbol _ input hlt]
  unfold specHuffBits occurring
  rw [filter_map_sum _ _ _ (fun x _ hx => by
    have hzero : countByte input x = 0 := by
      by_contra hnz
      simp [Nat.pos_of_ne_zero hnz] at hx
    simp [hzero])]
  rw [listRange_map_sum]

/-- Claim C9: for every non-empty input the payload holds exactly
ceil(B/8) bytes, B being the sum over the occurring symbols of count times
code length; when B is not a multiple of 8 the final byte's low
8 - (B mod 8) bits are zero.  No other padding exists: the length is
exact. -/
theorem claim9_payload_exact (input : List Nat) (hne : input ≠ [])
    (hlt : ∀ c ∈ input, c < 256) :
    (encPayload input).length = (specHuffBits input + 7) / 8 ∧
    (specHuffBits input % 8 ≠ 0 →
      ∃ v, (encPayload input).getLast? = some v ∧
        v % 2 ^ (8 - specHuffBits input % 8) = 0) := by
  have hbits := codesConcat_eq_specHuffBits input hlt
  constructor
  · rw [encPayload, packBits_length, hbits]
  · intro hmod
    rw [encPayload]
    rw [← hbits] at hmod
    obtain ⟨v, hv1, hv2⟩ := packBits_getLast _ hmod
    exact ⟨v, hv1, by rwa [hbits] at hv2⟩

/-- Witness for claim C9: on "ab" the two codes have one bit each, so
B = 2 and the payload is a single byte whose low six bits are zero. -/
theorem claim9_payload_exact_witness :
    ([97, 98] : List Nat) ≠ [] ∧ (∀ c ∈ ([97, 98] : List Nat), c < 256) ∧
      ((encPayload [97, 98]).length = (specHuffBits [97, 98] + 7) / 8 ∧
        (specHuffBits [97, 98] % 8 ≠ 0 →
          ∃ v, (encPayload [97, 98]).getLast? = some v ∧
            v % 2 ^ (8 - specHuffBits [97, 98] % 8) = 0)) :=
  ⟨by decide, by decide, claim9_payload_exact [97, 98] (by decide) (by decide)⟩

/-! ### Single-symbol inputs (claim C4) -/

theorem countByte_replicate (n b i : Nat) :
    countByte (List.replicate n b) i = if i = b then n else 0 := by
  by_cases hib : i = b
  · subst hib; simp [countByte, List.count_replicate]
  · simp [countByte, List.count_replicate, hib, Ne.symm hib]

/-- A filter of `List.range` by a predicate that holds exactly at one
in-range point keeps exactly that point. -/
theorem range_filter_nil (p : Nat → Bool) (b : Nat)
    (hp : ∀ i, p i = true ↔ i = b) :
    ∀ k, k ≤ b → (List.range k).filter p = [] := by
  intro k
  induction k with
  | zero => intro _; simp
  | succ m ih =>
    intro hkb
    rw [List.range_succ, List.filter_append, ih (by omega)]
    have : p m = false := by
      rw [Bool.eq_false_iff]
      intro hm
      have := (hp m).1 hm
      omega
    simp [this]

theorem range_filter_single (p : Nat → Bool) (b : Nat)
    (hp : ∀ i, p i = true ↔ i = b) :
    ∀ k, b < k → (List.range k).filter p = [b] := by
  intro k
  induction k with
  | zero => omega
  | succ m ih =>
    intro hbk
    rw [List.range_succ, List.filter_append]
    by_cases hbm : b = m
    · subst hbm
      rw [range_filter_nil p b hp b (by omega)]
      simp [(hp b).2 rfl]
    · rw [ih (by omega)]
      have : p m = false := by
        rw [Bool.eq_false_iff]
        intro hm
        exact hbm ((hp m).1 hm).symm
      simp [this]

theorem occurring_replicate (n b : Nat) (hb : b < 256) (hn : 1 ≤ n) :
    occurring (List.replicate n b) = [b] := by
  unfold occurring
  exact range_filter_single _ b
    (fun i => by
      rw [countByte_replicate]
      by_cases hib : i = b <;> simp [hib] <;> omega)
    256 hb

theorem buildTree_replicate (n b : Nat) (hb : b < 256) (hn : 1 ≤ n) :
    buildTree (List.replicate n b) = some (Node.leaf b n) := by
  have hocc := occurring_replicate n b hb hn
  have hleaves : leaves (List.replicate n b) = [Node.leaf b n] := by
    rw [leaves, hocc]
    simp [countByte_replicate]
  have hheap : buildHeap (List.replicate n b) = [Node.leaf b n] := by
    rw [buildHeap, hleaves]
    simp [heapPush, siftUpF]
  rw [buildTree, hheap]
  simp [huffLoopFuel, heapPop, siftDownF]

theorem codeTable_replicate (n b : Nat) (hb : b < 256) (hn : 1 ≤ n) :
    codeTable (List.replicate n b) = [(b, [false])] := by
  rw [codeTable, buildTree_replicate n b hb hn]
  simp [genCodes]

theorem codeOf_replicate (n b : Nat) (hb : b < 256) (hn : 1 ≤ n) :
    codeOf (List.replicate n b) b = [false] := by
  rw [codeOf, codeTable_replicate n b hb hn]
  simp [List.lookup]

theorem sortedEntries_replicate (n b : Nat) (hb : b < 256) (hn : 1 ≤ n) :
    sortedEntries (List.replicate n b) = [(b, n, [false])] := by
  rw [sortedEntries, entries, occurring_replicate n b hb hn]
  simp [countByte_replicate, codeOf_replicate n b hb hn,
    List.insertionSort, List.orderedInsert]

theorem codesConcat_const (f : Nat → List Bool) (b : Nat) (hf : f b = [false]) :
    ∀ n, codesConcat f (List.replicate n b) = List.replicate n false := by
  intro n
  induction n with
  | zero => simp [codesConcat]
  | succ m ih => simp [List.replicate_succ, codesConcat, hf, ih]

/-- Claim C4: an input made of one byte repeated n times yields a codebook
with exactly one entry, whose code is "0", and a payload of exactly
ceil(n/8) bytes. -/
theorem claim4_single_symbol (fmtP fmtS : Nat → Nat → List Nat) (b n : Nat)
    (hb : b < 256) (hn : 1 ≤ n) :
    sortedEntries (List.replicate n b) = [(b, n, [false])] ∧
    (encodeMain fmtP fmtS (List.replicate n b)).lines.length = 1 ∧
    (encodeMain fmtP fmtS (List.replicate n b)).payload.length = (n + 7) / 8 := by
  have hse := sortedEntries_replicate n b hb hn
  have htc : totalCount (List.replicate n b) = n := by
    simp [totalCount]
  have henc : encodeMain fmtP fmtS (List.replicate n b)
      = ⟨encLines fmtP fmtS (List.replicate n b), encPayload (List.replicate n b), 0⟩ := by
    rw [encodeMain, htc, if_neg (by omega)]
  refine ⟨hse, ?_, ?_⟩
  · rw [henc]
    simp [encLines, hse]
  · rw [henc]
    show (encPayload (List.replicate n b)).length = (n + 7) / 8
    rw [encPayload, codesConcat_const _ b (codeOf_replicate n b hb hn) n,
      packBits_length]
    simp

/-- Witness for claim C4: the "aaa" scenario — one entry with code "0",
payload of ceil(3/8) = 1 byte. -/
theorem claim4_single_symbol_witness :
    (97 : Nat) < 256 ∧ (1 : Nat) ≤ 3 ∧
      (sortedEntries (List.replicate 3 97) = [(97, 3, [false])] ∧
        (encodeMain (fun _ _ => []) (fun _ _ => []) (List.replicate 3 97)).lines.length = 1 ∧
        (encodeMain (fun _ _ => []) (fun _ _ => []) (List.replicate 3 97)).payload.length = (3 + 7) / 8) :=
  ⟨by decide, by decide,
    claim4_single_symbol (fun _ _ => []) (fun _ _ => []) 97 3 (by decide) (by decide)⟩

/-! ### Fixed-width metrics (claim C8) -/

theorem bitLenF_zero : ∀ fuel, bitLenF fuel 0 = 0 := by
  intro fuel
  cases fuel <;> simp [bitLenF]

/-- Characterization of the halving loop: with enough fuel it computes the
bit length, i.e. the unique k with n < 2^k and (for n ≥ 1) 2^(k-1) ≤ n. -/
theorem bitLenF_spec : ∀ (fuel n : Nat), n < 2 ^ fuel →
    n < 2 ^ bitLenF fuel n ∧
      (1 ≤ n → 2 ^ (bitLenF fuel n - 1) ≤ n ∧ 1 ≤ bitLenF fuel n) := by
  intro fuel
  induction fuel with
  | zero =>
    intro n hn
    simp at hn
    subst hn
    simp [bitLenF]
  | succ f ih =>
    intro n hn
    by_cases h0 : n = 0
    · subst h0
      simp [bitLenF]
    · have hstep : bitLenF (f + 1) n = bitLenF f (n / 2) + 1 := by
        simp [bitLenF, h0]
      have hhalf : n / 2 < 2 ^ f := by
        rw [Nat.pow_succ] at hn
        omega
      obtain ⟨ih1, ih2⟩ := ih (n / 2) hhalf
      rw [hstep]
      constructor
      · rw [Nat.pow_succ]
        omega
      · intro _
        refine ⟨?_, by omega⟩
        simp only [Nat.add_sub_cancel]
        by_cases hh0 : n / 2 = 0
        · rw [hh0, bitLenF_zero]
          simp
          omega
        · obtain ⟨ihp, ihk⟩ := ih2 (by omega)
          have hk : bitLenF f (n / 2) - 1 + 1 = bitLenF f (n / 2) := by omega
          have h2 : 2 ^ bitLenF f (n / 2) = 2 * 2 ^ (bitLenF f (n / 2) - 1) := by
            calc 2 ^ bitLenF f (n / 2) = 2 ^ (bitLenF f (n / 2) - 1 + 1) := by rw [hk]
              _ = 2 * 2 ^ (bitLenF f (n / 2) - 1) := by rw [Nat.pow_succ]; ring
          rw [h2]
          omega

theorem distinctCount_pos (input : List Nat) (hne : input ≠ [])
    (hlt : ∀ c ∈ input, c < 256) : 1 ≤ distinctCount input := by
  obtain ⟨c, cs, rfl⟩ := List.exists_cons_of_ne_nil hne
  have hc : c < 256 := hlt c (by simp)
  have hmem : c ∈ occurring (c :: cs) := by
    unfold occurring
    rw [List.mem_filter]
    refine ⟨by simp [List.mem_range, hc], ?_⟩
    simp [countByte, List.count_cons]
  unfold distinctCount
  have := List.ne_nil_of_mem hmem
  cases h : occurring (c :: cs) with
  | nil => exact absurd h this
  | cons x xs => simp

/-- fixed_bits equals ceil(log2 distinct_count), with a minimum of 1. -/
theorem fixedBits_eq_clog (input : List Nat) (hne : input ≠ [])
    (hlt : ∀ c ∈ input, c < 256) :
    fixedBits input = max 1 (Nat.clog 2 (distinctCount input)) := by
  have hd := distinctCount_pos input hne hlt
  set d := distinctCount input with hdd
  by_cases hd1 : d = 1
  · rw [fixedBits, ← hdd, hd1]
    have hclog : Nat.clog 2 1 = 0 := by
      have := (Nat.le_pow_iff_clog_le (b := 2) (by norm_num) (x := 1) (y := 0)).1 (by norm_num)
      omega
    simp [hclog, bitLenF]
  · have hd2 : 2 ≤ d := by omega
    have hm : d - 1 < 2 ^ d := by
      have := Nat.lt_two_pow d
      omega
    obtain ⟨hs1, hs2⟩ := bitLenF_spec d (d - 1) hm
    obtain ⟨hlow, hk1⟩ := hs2 (by omega)
    set k := bitLenF d (d - 1) with hkk
    have hfix : fixedBits input = k := by
      rw [fixedBits, ← hdd, ← hkk, if_neg (by omega)]
    have hle : Nat.clog 2 d ≤ k :=
      (Nat.le_pow_iff_clog_le (by norm_num)).1 (by omega)
    have hge : k ≤ Nat.clog 2 d := by
      by_contra hlt2
      have hk2 : Nat.clog 2 d ≤ k - 1 := by omega
      have := (Nat.le_pow_iff_clog_le (b := 2) (by norm_num) (x := d) (y := k - 1)).2 hk2
      omega
    rw [hfix]
    omega

/-- Claim C8: fixed-width bits per symbol equal ceil(log2 distinct) with a
minimum of 1, total_bits_fixed is total_count times that, and the
compression ratio is total_bits_fixed over the total Huffman bits (the sum
over occurring symbols of count times code length). -/
theorem claim8_metrics (input : List Nat) (hne : input ≠ [])
    (hlt : ∀ c ∈ input, c < 256) :
    fixedBits input = max 1 (Nat.clog 2 (distinctCount input)) ∧
    totalBitsFixed input = totalCount input * max 1 (Nat.clog 2 (distinctCount input)) ∧
    totalBitsHuffman input = specHuffBits input ∧
    compressionRatioQ input = (totalBitsFixed input : ℚ) / (specHuffBits input : ℚ) := by
  have hfb := fixedBits_eq_clog input hne hlt
  have hth : totalBitsHuffman input = specHuffBits input := by
    unfold totalBitsHuffman
    have hperm : List.Perm (sortedEntries input) (entries input) :=
      List.perm_insertionSort entLe _
    rw [(hperm.map (fun e => e.2.2.length * e.2.1)).sum_eq]
    unfold entries specHuffBits
    rw [List.map_map]
    have : ((fun e : Nat × Nat × List Bool => e.2.2.length * e.2.1) ∘
        fun b => (b, countByte input b, codeOf input b))
        = fun b => countByte input b * (codeOf input b).length := by
      funext b
      simp [Nat.mul_comm]
    rw [this]
  refine ⟨hfb, by rw [totalBitsFixed, hfb], hth, ?_⟩
  rw [compressionRatioQ, hth]

/-- Witness for claim C8: on "abb" there are 2 distinct symbols, so 1
fixed bit per symbol, 3 fixed bits total, 3 Huffman bits, ratio 1. -/
theorem claim8_metrics_witness :
    ([97, 98, 98] : List Nat) ≠ [] ∧ (∀ c ∈ ([97, 98, 98] : List Nat), c < 256) ∧
      (fixedBits [97, 98, 98] = max 1 (Nat.clog 2 (distinctCount [97, 98, 98])) ∧
        totalBitsFixed [97, 98, 98]
          = totalCount [97, 98, 98] * max 1 (Nat.clog 2 (distinctCount [97, 98, 98])) ∧
        totalBitsHuffman [97, 98, 98] = specHuffBits [97, 98, 98] ∧
        compressionRatioQ [97, 98, 98]
          = (totalBitsFixed [97, 98, 98] : ℚ) / (specHuffBits [97, 98, 98] : ℚ)) :=
  ⟨by decide, by decide, claim8_metrics [97, 98, 98] (by decide) (by decide)⟩

/-! ### List scanning helpers -/

theorem takeWhile_all_append (p : Nat → Bool) (l : List Nat) (c : Nat) (r : List Nat)
    (hl : ∀ x ∈ l, p x = true) (hc : p c = false) :
    (l ++ c :: r).takeWhile p = l := by
  induction l with
  | nil => simp [List.takeWhile_cons, hc]
  | cons a as ih =>
    have ha : p a = true := hl a (by simp)
    simp only [List.cons_append, List.takeWhile_cons, ha, if_true]
    rw [ih (fun x hx => hl x (by simp [hx]))]

theorem takeWhile_all (p : Nat → Bool) (l : List Nat) (hl : ∀ x ∈ l, p x = true) :
    l.takeWhile p = l := by
  induction l with
  | nil => simp
  | cons a as ih =>
    have ha : p a = true := hl a (by simp)
    simp only [List.takeWhile_cons, ha, if_true]
    rw [ih (fun x hx => hl x (by simp [hx]))]

/-- Value computed by "%ld" on a digit run followed by anything else. -/
theorem digitsVal_append (ds : List Nat) (d : Nat) :
    digitsVal (ds ++ [d]) = 10 * digitsVal ds + (d - 48) := by
  simp [digitsVal, List.foldl_append]

/-- The decimal rendering consists of digits, is nonempty, and parses back
to the value. -/
theorem decDigitsF_spec : ∀ (fuel n : Nat), n < fuel →
    (∀ c ∈ decDigitsF fuel n, isDigitB c = true) ∧ decDigitsF fuel n ≠ [] ∧
      digitsVal (decDigitsF fuel n) = n := by
  intro fuel
  induction fuel with
  | zero => omega
  | succ f ih =>
    intro n hn
    by_cases h10 : n < 10
    · refine ⟨?_, by simp [decDigitsF, h10], ?_⟩
      · intro c hcm
        simp only [decDigitsF, if_pos h10, List.mem_singleton] at hcm
        subst hcm
        simp [isDigitB]
        omega
      · simp [decDigitsF, h10, digitsVal]
    · have hrec : n / 10 < f := by omega
      obtain ⟨ih1, ih2, ih3⟩ := ih (n / 10) hrec
      simp only [decDigitsF, if_neg h10]
      refine ⟨?_, by simp, ?_⟩
      · intro c hcm
        rw [List.mem_append] at hcm
        rcases hcm with hcm | hcm
        · exact ih1 c hcm
        · rw [List.mem_singleton] at hcm
          subst hcm
          simp [isDigitB]
          omega
      · rw [digitsVal_append, ih3]
        omega

theorem decDigits_spec (n : Nat) :
    (∀ c ∈ decDigits n, isDigitB c = true) ∧ decDigits n ≠ [] ∧
      digitsVal (decDigits n) = n :=
  decDigitsF_spec (n + 1) n (by omega)

/-! ### Codebook row parsing (claims C2, C6, C10) -/

theorem scanLong_digits (d0 : Nat) (ds : List Nat) (c : Nat) (r : List Nat)
    (hd : ∀ x ∈ d0 :: ds, isDigitB x = true) (hc : isDigitB c = false) :
    scanLong (d0 :: (ds ++ c :: r)) = some ((digitsVal (d0 :: ds) : Int), c :: r) := by
  have hd0 : isDigitB d0 = true := hd d0 (by simp)
  have hd0b : 48 ≤ d0 ∧ d0 ≤ 57 := by simpa [isDigitB] using hd0
  have hsp : isSpaceB d0 = false := by simp [isSpaceB]; omega
  have htw : List.takeWhile isDigitB (d0 :: (ds ++ c :: r)) = d0 :: ds := by
    have := takeWhile_all_append isDigitB (d0 :: ds) c r hd hc
    simpa [List.cons_append] using this
  have hdr : List.drop (d0 :: ds).length (d0 :: (ds ++ c :: r)) = c :: r := by
    have := List.drop_left (d0 :: ds) (c :: r)
    simpa [List.cons_append] using this
  simp only [scanLong, List.dropWhile_cons, hsp, Bool.false_eq_true, if_false,
    List.headD_cons]
  rw [if_neg (by omega : ¬(d0 = 45 ∨ d0 = 43))]
  rw [htw]
  rw [if_neg (by simp : ¬(d0 :: ds = []))]
  rw [if_neg (by omega : ¬d0 = 45)]
  rw [hdr]

theorem fixedDec_nonzero (x : List Nat) (hx : FixedDec x) : ∀ v ∈ x, v ≠ 0 := by
  obtain ⟨a, b, rfl, ha, hb, hda, hdb⟩ := hx
  intro v hv
  rw [List.mem_append] at hv
  rcases hv with hv | hv
  · have := hda v hv
    simp [isDigitB] at this
    omega
  · rw [List.mem_cons] at hv
    rcases hv with rfl | hv
    · omega
    · have := hdb v hv
      simp [isDigitB] at this
      omega

theorem scanFloat_fixedDec (x : List Nat) (hx : FixedDec x) (c : Nat) (r : List Nat)
    (hc1 : isDigitB c = false) (hc2 : c ≠ 46) (hc3 : c ≠ 101) (hc4 : c ≠ 69) :
    scanFloat (x ++ c :: r) = some (c :: r) := by
  obtain ⟨a, b, rfl, ha, hb, hda, hdb⟩ := hx
  obtain ⟨a0, as, rfl⟩ := List.exists_cons_of_ne_nil ha
  have ha0 : isDigitB a0 = true := hda a0 (by simp)
  have ha0b : 48 ≤ a0 ∧ a0 ≤ 57 := by simpa [isDigitB] using ha0
  have hsp : isSpaceB a0 = false := by simp [isSpaceB]; omega
  have h46 : isDigitB 46 = false := by decide
  have htw1 : List.takeWhile isDigitB (a0 :: (as ++ 46 :: (b ++ c :: r))) = a0 :: as := by
    have := takeWhile_all_append isDigitB (a0 :: as) 46 (b ++ c :: r) hda h46
    simpa [List.cons_append] using this
  have hdr1 : List.drop (a0 :: as).length (a0 :: (as ++ 46 :: (b ++ c :: r)))
      = 46 :: (b ++ c :: r) := by
    have := List.drop_left (a0 :: as) (46 :: (b ++ c :: r))
    simpa [List.cons_append] using this
  have htw2 : List.takeWhile isDigitB (b ++ c :: r) = b :=
    takeWhile_all_append isDigitB b c r hdb hc1
  have hdr2 : List.drop b.length (b ++ c :: r) = c :: r := List.drop_left b (c :: r)
  simp only [scanFloat, List.cons_append, List.append_assoc, List.dropWhile_cons, hsp,
    Bool.false_eq_true, if_false, List.headD_cons]
  rw [if_neg (by omega : ¬(a0 = 45 ∨ a0 = 43))]
  rw [htw1, hdr1]
  simp only [List.headD_cons, List.tail_cons, if_pos rfl, if_true, htw2, hdr2]
  rw [if_neg (by simp : ¬((a0 :: as) = [] ∧ b = []))]
  rw [if_neg (by omega : ¬(c = 101 ∨ c = 69))]

theorem scanCode_bits (code : List Bool) (r : List Nat)
    (h1 : code ≠ []) (h2 : code.length ≤ 255) :
    scanCode (code.map bitChar ++ 34 :: r)
      = some (code, 34 :: r) := by
  have hall : ∀ x ∈ code.map bitChar, (x == 48 || x == 49) = true := by
    intro x hx
    rw [List.mem_map] at hx
    obtain ⟨bb, _, rfl⟩ := hx
    cases bb <;> decide
  have htw : List.takeWhile (fun c => c == 48 || c == 49)
      (code.map bitChar ++ 34 :: r)
      = code.map bitChar :=
    takeWhile_all_append _ _ 34 r hall (by decide)
  have hlen : (code.map bitChar).length ≤ 255 := by
    simpa using h2
  have hdr : List.drop (code.map bitChar).length
      (code.map bitChar ++ 34 :: r) = 34 :: r :=
    List.drop_left _ _
  have hback : (code.map bitChar).map (fun c => c == 49) = code := by
    rw [List.map_map]
    have : ((fun c => c == 49) ∘ bitChar) = id := by
      funext bb
      cases bb <;> decide
    rw [this, List.map_id]
  simp only [scanCode, htw, List.take_of_length_le hlen]
  rw [if_neg (by simpa using h1)]
  rw [hback, hdr]

theorem expectChar_cons (c : Nat) (r : List Nat) : expectChar c (c :: r) = some r := by
  simp [expectChar]

theorem parseRest_wellformed (count : Nat) (pr si : List Nat) (code : List Bool)
    (hpr : FixedDec pr) (hsi : FixedDec si) (hcode : code ≠ []) (hlen : code.length ≤ 255) :
    parseRest (decDigits count ++ 44 :: pr ++ 44 :: 34 ::
        code.map bitChar ++ 34 :: 44 :: si ++ [10])
      = some ((count : Int), code) := by
  obtain ⟨hdig, hne, hval⟩ := decDigits_spec count
  obtain ⟨d0, ds, hdec⟩ := List.exists_cons_of_ne_nil hne
  rw [hdec] at hdig hval
  have h44 : isDigitB 44 = false := by decide
  have h10 : isDigitB 10 = false := by decide
  have hlong := scanLong_digits d0 ds 44
    (pr ++ 44 :: 34 :: code.map bitChar ++ 34 :: 44 :: si ++ [10])
    hdig h44
  have hfl1 := scanFloat_fixedDec pr hpr 44
    (34 :: code.map bitChar ++ 34 :: 44 :: si ++ [10])
    h44 (by omega) (by omega) (by omega)
  have hfl2 := scanFloat_fixedDec si hsi 10 [] h10 (by omega) (by omega) (by omega)
  have hsc := scanCode_bits code (44 :: si ++ [10]) hcode hlen
  rw [hdec]
  simp only [List.cons_append, List.append_assoc] at hlong hfl1 hfl2 hsc ⊢
  simp only [parseRest]
  rw [hlong]
  simp only [Option.bind_eq_bind, Option.some_bind, expectChar_cons]
  rw [hfl1]
  simp only [Option.some_bind, expectChar_cons]
  rw [hsc]
  simp only [Option.some_bind, expectChar_cons]
  rw [hfl2]
  simp [hval]

theorem digit_nonzero (x : Nat) (h : isDigitB x = true) : x ≠ 0 := by
  simp [isDigitB] at h
  omega

theorem tail_nonzero (count : Nat) (pr si : List Nat) (code : List Bool)
    (hpr : FixedDec pr) (hsi : FixedDec si) :
    ∀ x ∈ decDigits count ++ 44 :: pr ++ 44 :: 34 ::
        code.map bitChar ++ 34 :: 44 :: si ++ [10], x ≠ 0 := by
  intro x hx
  obtain ⟨hdig, _, _⟩ := decDigits_spec count
  simp only [List.mem_append, List.mem_cons, List.not_mem_nil, or_false,
    List.mem_map] at hx
  rcases hx with (((hx | hx | hx) | hx | hx | ⟨bb, hbb, rfl⟩) | hx | hx | hx) | hx
  · exact digit_nonzero x (hdig x hx)
  · omega
  · exact fixedDec_nonzero pr hpr x hx
  · omega
  · omega
  · cases bb <;> decide
  · omega
  · omega
  · exact fixedDec_nonzero si hsi x hx
  · omega

theorem parseRow_escShape (e bv count : Nat) (pr si : List Nat) (code : List Bool)
    (hpr : FixedDec pr) (hsi : FixedDec si) (hcode : code ≠ []) (hlen : code.length ≤ 255)
    (he : (e = 110 ∧ bv = 10) ∨ (e = 116 ∧ bv = 9) ∨ (e = 114 ∧ bv = 13) ∨ (e = 92 ∧ bv = 92)) :
    parseRow (34 :: 92 :: e :: 34 :: 44 :: (decDigits count ++ 44 :: pr ++ 44 :: 34 ::
        code.map bitChar ++ 34 :: 44 :: si ++ [10]))
      = some (bv, (count : Int), code) := by
  have hall : ∀ x ∈ (34 :: 92 :: e :: 34 :: 44 :: (decDigits count ++ 44 :: pr ++ 44 :: 34 ::
      code.map bitChar ++ 34 :: 44 :: si ++ [10])),
      (fun c => decide (c ≠ 0)) x = true := by
    intro x hx
    simp only [List.mem_cons] at hx
    rcases hx with rfl | rfl | rfl | rfl | rfl | hx
    · decide
    · decide
    · rcases he with ⟨rfl, _⟩ | ⟨rfl, _⟩ | ⟨rfl, _⟩ | ⟨rfl, _⟩ <;> decide
    · decide
    · decide
    · simpa using tail_nonzero count pr si code hpr hsi x hx
  have htw := takeWhile_all (fun c => decide (c ≠ 0)) _ hall
  have hrest := parseRest_wellformed count pr si code hpr hsi hcode hlen
  rcases he with ⟨rfl, rfl⟩ | ⟨rfl, rfl⟩ | ⟨rfl, rfl⟩ | ⟨rfl, rfl⟩ <;>
    (simp only [parseRow, htw]
     simp only [parseSymbol, List.getD_cons_zero, List.getD_cons_succ, List.drop_succ_cons,
       List.drop_zero, List.findIdx?_cons, List.headD_cons]
     norm_num
     simp only [List.cons_append, List.append_assoc] at hrest ⊢
     rw [hrest])

theorem parseRow_litShape (bv count : Nat) (pr si : List Nat) (code : List Bool)
    (hpr : FixedDec pr) (hsi : FixedDec si) (hcode : code ≠ []) (hlen : code.length ≤ 255)
    (h0 : bv ≠ 0) (h34 : bv ≠ 34) (h92 : bv ≠ 92) :
    parseRow (34 :: bv :: 34 :: 44 :: (decDigits count ++ 44 :: pr ++ 44 :: 34 ::
        code.map bitChar ++ 34 :: 44 :: si ++ [10]))
      = some (bv, (count : Int), code) := by
  have hall : ∀ x ∈ (34 :: bv :: 34 :: 44 :: (decDigits count ++ 44 :: pr ++ 44 :: 34 ::
      code.map bitChar ++ 34 :: 44 :: si ++ [10])),
      (fun c => decide (c ≠ 0)) x = true := by
    intro x hx
    simp only [List.mem_cons] at hx
    rcases hx with rfl | rfl | rfl | rfl | hx
    · decide
    · simpa using h0
    · decide
    · decide
    · simpa using tail_nonzero count pr si code hpr hsi x hx
  have htw := takeWhile_all (fun c => decide (c ≠ 0)) _ hall
  have hrest := parseRest_wellformed count pr si code hpr hsi hcode hlen
  simp only [parseRow, htw]
  simp [parseSymbol, List.findIdx?_cons, h34, h92]
  simp only [List.cons_append, List.append_assoc] at hrest ⊢
  rw [hrest]

/-- Amended claim C2: for every byte except NUL and the double quote, the
encoder renders the symbol field with the five escape forms and literal
characters otherwise, and the decoder's line parser recovers the same byte
and parses the rest of the row.  (For NUL and the double quote the parse
of the rest fails and the row is skipped; see claim C10.) -/
theorem claim2_escape_roundtrip (b : Nat) (hb : b < 256) (h0 : b ≠ 0) (h34 : b ≠ 34) :
    printSymbol b = specRender b ∧
    ∀ (count : Nat) (pr si : List Nat) (code : List Bool),
      FixedDec pr → FixedDec si → code ≠ [] → code.length ≤ 255 →
      parseRow (codebookLine b count pr si code) = some (b, (count : Int), code) := by
  refine ⟨rfl, ?_⟩
  intro count pr si code hpr hsi hcode hlen
  by_cases h10 : b = 10
  · subst h10
    have h := parseRow_escShape 110 10 count pr si code hpr hsi hcode hlen
      (Or.inl ⟨rfl, rfl⟩)
    simp only [List.cons_append, List.append_assoc] at h ⊢
    simpa [codebookLine, printSymbol] using h
  · by_cases h9 : b = 9
    · subst h9
      have h := parseRow_escShape 116 9 count pr si code hpr hsi hcode hlen
        (Or.inr (Or.inl ⟨rfl, rfl⟩))
      simpa [codebookLine, printSymbol] using h
    · by_cases h13 : b = 13
      · subst h13
        have h := parseRow_escShape 114 13 count pr si code hpr hsi hcode hlen
          (Or.inr (Or.inr (Or.inl ⟨rfl, rfl⟩)))
        simpa [codebookLine, printSymbol] using h
      · by_cases h92 : b = 92
        · subst h92
          have h := parseRow_escShape 92 92 count pr si code hpr hsi hcode hlen
            (Or.inr (Or.inr (Or.inr ⟨rfl, rfl⟩)))
          simpa [codebookLine, printSymbol] using h
        · have h := parseRow_litShape b count pr si code hpr hsi hcode hlen h0 h34 h92
          simpa [codebookLine, printSymbol, h10, h9, h13, h34, h92] using h

/-- Counterexample to claim C2 as stated: for the double-quote byte the
rendered row's remaining fields fail to parse — the parse result is
`none`, so the row is skipped rather than parsed. -/
theorem claim2_counterexample :
    printSymbol 34 = [34, 92, 34, 34] ∧
    parseRow (codebookLine 34 1 (strBytes ("1.000000000000000"))
        (strBytes ("0.000000000000000")) [false]) = none := by
  constructor
  · rfl
  · decide

/-- Witness for the amended claim C2: the byte 'a' with a well-formed row
parses back to ('a', 3, "01"). -/
theorem claim2_escape_roundtrip_witness :
    (97 : Nat) < 256 ∧ (97 : Nat) ≠ 0 ∧ (97 : Nat) ≠ 34 ∧
      FixedDec (strBytes ("0.500000000000000")) ∧
      FixedDec (strBytes ("1.000000000000000")) ∧
      ([false, true] : List Bool) ≠ [] ∧ ([false, true] : List Bool).length ≤ 255 ∧
      (printSymbol 97 = specRender 97 ∧
        parseRow (codebookLine 97 3 (strBytes ("0.500000000000000"))
            (strBytes ("1.000000000000000")) [false, true])
          = some (97, (3 : Int), [false, true])) := by
  have hpr : FixedDec (strBytes ("0.500000000000000")) :=
    ⟨[48], [53] ++ List.replicate 14 48, by decide, by decide, by decide,
      by decide, by decide⟩
  have hsi : FixedDec (strBytes ("1.000000000000000")) :=
    ⟨[49], List.replicate 15 48, by decide, by decide, by decide,
      by decide, by decide⟩
  have h := claim2_escape_roundtrip 97 (by decide) (by decide) (by decide)
  exact ⟨by decide, by decide, by decide, hpr, hsi, by decide, by decide,
    h.1, h.2 3 _ _ [false, true] hpr hsi (by decide) (by decide)⟩

theorem takeWhile_quoteRow (count : Nat) (pr si : List Nat) (code : List Bool) :
    (codebookLine 34 count pr si code).takeWhile (fun c => decide (c ≠ 0))
      = 34 :: 92 :: 34 :: 34 :: 44 :: ((decDigits count ++ 44 :: pr ++ 44 :: 34 ::
          code.map bitChar ++ 34 :: 44 :: si ++ [10]).takeWhile
            (fun c => decide (c ≠ 0))) := by
  simp [codebookLine, printSymbol, List.takeWhile_cons]

/-- A row whose symbol is the double quote is always skipped: strchr finds
the escaped quote, so sscanf starts at the true closing quote and "%ld"
fails immediately. -/
theorem parseRow_quoteRow (count : Nat) (pr si : List Nat) (code : List Bool) :
    parseRow (codebookLine 34 count pr si code) = none := by
  rw [parseRow]
  simp only [takeWhile_quoteRow]
  simp [parseRest, scanLong, List.findIdx?_cons, List.dropWhile_cons, isSpaceB, isDigitB]

/-- A row whose symbol is NUL is truncated at the NUL by the C string
functions: no closing quote is found and the row is skipped. -/
theorem parseRow_nulRow (count : Nat) (pr si : List Nat) (code : List Bool) :
    parseRow (codebookLine 0 count pr si code) = none := by
  rw [parseRow]
  simp [codebookLine, printSymbol, List.takeWhile_cons]

theorem takeWhile_nulRow (count : Nat) (pr si : List Nat) (code : List Bool) :
    (codebookLine 0 count pr si code).takeWhile (fun c => decide (c ≠ 0)) = [34] := by
  simp [codebookLine, printSymbol, List.takeWhile_cons]

/-- Skipped rows contribute nothing to the codebook fold, wherever they
appear. -/
theorem readFold_skip (l : List Nat) (hl : parseRow l = none) :
    ∀ (pre post : List (List Nat)) (st : DTree × Int),
      (pre ++ l :: post).foldl rcStep st = (pre ++ post).foldl rcStep st := by
  intro pre
  induction pre with
  | nil =>
    intro post st
    simp only [List.nil_append, List.foldl_cons]
    rw [show rcStep st l = st by simp [rcStep, hl]]
  | cons q qs ih =>
    intro post st
    simp only [List.cons_append, List.foldl_cons]
    exact ih post (rcStep st q)

/-- The codebook fold, characterized over the successfully parsed rows:
the tree is the fold of the inserts and expected_symbols is the sum of
the counts. -/
theorem readFold_spec : ∀ (lines : List (List Nat)) (t : DTree) (e : Int),
    lines.foldl rcStep (t, e)
      = ((lines.filterMap parseRow).foldl (fun tt r => insertCode tt r.2.2 r.1) t,
         e + ((lines.filterMap parseRow).map (fun r => r.2.1)).sum) := by
  intro lines
  induction lines with
  | nil => intro t e; simp
  | cons l ls ih =>
    intro t e
    rcases hp : parseRow l with _ | ⟨s, c, code⟩
    · simp only [List.foldl_cons, List.filterMap_cons, hp]
      rw [show rcStep (t, e) l = (t, e) by simp [rcStep, hp]]
      exact ih t e
    · simp only [List.foldl_cons, List.filterMap_cons, hp]
      rw [show rcStep (t, e) l = (insertCode t code s, e + c) by simp [rcStep, hp]]
      rw [ih]
      simp [List.map_cons, List.sum_cons]
      ring

/-- Claim C6: the decoder skips malformed lines without aborting — a line
whose parse fails contributes nothing, wherever it appears — and the
resulting tree and expected_symbol_count are determined by exactly the
successfully parsed rows, with the count being their sum. -/
theorem claim6_permissive_read :
    (∀ cbLines : List (List Nat),
      readCodebook cbLines
        = (((cbLines.filterMap parseRow).foldl (fun tt r => insertCode tt r.2.2 r.1) blankRoot),
           ((cbLines.filterMap parseRow).map (fun r => r.2.1)).sum)) ∧
    (∀ (bad : List Nat), parseRow bad = none →
      ∀ pre post : List (List Nat),
        readCodebook (pre ++ bad :: post) = readCodebook (pre ++ post)) := by
  constructor
  · intro cbLines
    rw [readCodebook, readFold_spec]
    simp
  · intro bad hbad pre post
    rw [readCodebook, readCodebook, readFold_skip bad hbad]

/-- Witness for claim C6: a good row for 'a' plus three malformed rows —
missing closing quote, a code character outside {0,1}, and too few
fields — give expected_symbol_count 3, the good row's count. -/
theorem claim6_permissive_read_witness :
    parseRow (strBytes ("\"x,1,0.5,\"0\",0.5\n")) = none ∧
      readCodebook [strBytes ("\"a\",3,0.5,\"0\",0.5\n"), strBytes ("\"x,1,0.5,\"0\",0.5\n")]
        = readCodebook [strBytes ("\"a\",3,0.5,\"0\",0.5\n")] ∧
      (readCodebook [strBytes ("\"a\",3,0.5,\"0\",0.5\n"), strBytes ("\"x,1,0.5,\"0\",0.5\n"),
          strBytes ("\"b\",2,0.5,\"2\",0.5\n"), strBytes ("\"c\",9\n")]).2 = 3 := by
  refine ⟨by decide, ?_, by decide⟩
  exact claim6_permissive_read.2 (strBytes ("\"x,1,0.5,\"0\",0.5\n")) (by decide)
    [strBytes ("\"a\",3,0.5,\"0\",0.5\n")] []

/-- Claim C10: the encoder writes the double-quote symbol escaped, but the
decoder's closing-quote search finds the escaped quote first (index 1 of
the searched tail) and the remaining fields fail to parse, so the row is
skipped; the NUL symbol is written literally, the C string is truncated at
the NUL, and that row is skipped too; hence neither row inserts anything
into the tree or contributes to expected_symbol_count. -/
theorem claim10_quote_nul_rows :
    (∀ (count : Nat) (pr si : List Nat) (code : List Bool),
      printSymbol 34 = [34, 92, 34, 34] ∧
      (((codebookLine 34 count pr si code).takeWhile (fun c => decide (c ≠ 0))).drop
          1).findIdx? (fun c => c == 34) = some 1 ∧
      parseRow (codebookLine 34 count pr si code) = none) ∧
    (∀ (count : Nat) (pr si : List Nat) (code : List Bool),
      printSymbol 0 = [34, 0, 34] ∧
      (codebookLine 0 count pr si code).takeWhile (fun c => decide (c ≠ 0)) = [34] ∧
      parseRow (codebookLine 0 count pr si code) = none) ∧
    (∀ (pre post : List (List Nat)) (c1 c0 : Nat) (pr1 si1 pr0 si0 : List Nat)
        (code1 code0 : List Bool),
      readCodebook (pre ++ codebookLine 34 c1 pr1 si1 code1 ::
          codebookLine 0 c0 pr0 si0 code0 :: post)
        = readCodebook (pre ++ post)) := by
  refine ⟨?_, ?_, ?_⟩
  · intro count pr si code
    refine ⟨rfl, ?_, parseRow_quoteRow count pr si code⟩
    rw [takeWhile_quoteRow]
    simp [List.findIdx?_cons]
  · intro count pr si code
    exact ⟨rfl, takeWhile_nulRow count pr si code, parseRow_nulRow count pr si code⟩
  · intro pre post c1 c0 pr1 si1 pr0 si0 code1 code0
    rw [readCodebook, readCodebook,
      readFold_skip _ (parseRow_quoteRow c1 pr1 si1 code1) pre]
    rw [readFold_skip _ (parseRow_nulRow c0 pr0 si0 code0) pre]

/-! ### Decode walk failure semantics (claim C7) -/

theorem foldl_stepBit_fail (root : DTree) (expected : Int) :
    ∀ (bits : List Bool) (p : Nat) (o : List Nat),
      bits.foldl (stepBit root expected) (.fail p o) = .fail p o := by
  intro bits
  induction bits with
  | nil => intro p o; rfl
  | cons bb bs ih => intro p o; simp only [List.foldl_cons, stepBit]; exact ih p o

theorem foldl_stepBit_done (root : DTree) (expected : Int) :
    ∀ (bits : List Bool) (cur : DTree) (num : Int) (out : List Nat) (pos : Nat),
      ¬ num < expected →
      bits.foldl (stepBit root expected) (.run cur num out pos) = .run cur num out pos := by
  intro bits
  induction bits with
  | nil => intro cur num out pos _; rfl
  | cons bb bs ih =>
    intro cur num out pos hnum
    simp only [List.foldl_cons]
    rw [show stepBit root expected (.run cur num out pos) bb = .run cur num out pos by
      simp [stepBit, hnum]]
    exact ih cur num out pos hnum

/-- Anatomy of a decode failure: the reported position is strictly past
the starting position by at most the number of available bits; the first
`p - pos` bits alone already produce the same failure with the same
output, and one bit fewer leaves the walk still running with all bits
consumed and the same output — so `p` is exactly the 1-based index of the
offending bit and the failure output is the output gathered before it. -/
theorem decode_fail_anatomy (root : DTree) (expected : Int) :
    ∀ (bits : List Bool) (cur : DTree) (num : Int) (out : List Nat) (pos p : Nat)
      (o : List Nat),
      bits.foldl (stepBit root expected) (.run cur num out pos) = .fail p o →
      pos < p ∧ p ≤ pos + bits.length ∧
      (∀ extra, (bits ++ extra).foldl (stepBit root expected) (.run cur num out pos)
        = .fail p o) ∧
      (bits.take (p - pos)).foldl (stepBit root expected) (.run cur num out pos)
        = .fail p o ∧
      (∃ cur2 num2, (bits.take (p - pos - 1)).foldl (stepBit root expected)
        (.run cur num out pos) = .run cur2 num2 o (p - 1)) := by
  intro bits
  induction bits with
  | nil =>
    intro cur num out pos p o h
    simp at h
  | cons bb bs ih =>
    intro cur num out pos p o h
    by_cases hnum : num < expected
    · rw [List.foldl_cons] at h
      rcases hstep : stepBit root expected (.run cur num out pos) bb with
        ⟨cur1, num1, out1, pos1⟩ | ⟨p1, o1⟩
      · rw [hstep] at h
        have hpos1 : pos1 = pos + 1 := by
          simp only [stepBit, if_pos hnum] at hstep
          rcases hchild : childOf cur bb with _ | ⟨s, lf, l, r⟩
          · rw [hchild] at hstep; simp at hstep
          · rw [hchild] at hstep
            by_cases hlf : (DTree.node s lf l r).isLeafB = true <;>
              simp [hlf] at hstep <;> omega
        subst hpos1
        obtain ⟨ih1, ih2, ih3, ih4, cur2, num2, ih5⟩ :=
          ih cur1 num1 out1 (pos + 1) p o h
        have htake : p - pos = (p - (pos + 1)) + 1 := by omega
        refine ⟨by omega, by simp [List.length_cons]; omega, ?_, ?_, ?_⟩
        · intro extra
          rw [List.cons_append, List.foldl_cons, hstep]
          exact ih3 extra
        · rw [htake, List.take_succ_cons, List.foldl_cons, hstep]
          exact ih4
        · refine ⟨cur2, num2, ?_⟩
          rw [show p - pos - 1 = (p - (pos + 1) - 1) + 1 by omega,
            List.take_succ_cons, List.foldl_cons, hstep]
          exact ih5
      · have hfail : p1 = pos + 1 ∧ o1 = out := by
          simp only [stepBit, if_pos hnum] at hstep
          rcases hchild : childOf cur bb with _ | ⟨s, lf, l, r⟩
          · rw [hchild] at hstep
            simp at hstep
            exact ⟨hstep.1.symm, hstep.2.symm⟩
          · rw [hchild] at hstep
            by_cases hlf : (DTree.node s lf l r).isLeafB = true <;> simp [hlf] at hstep
        obtain ⟨rfl, rfl⟩ := hfail
        rw [hstep, foldl_stepBit_fail] at h
        simp only [DState.fail.injEq] at h
        obtain ⟨hp, ho⟩ := h
        subst hp
        subst ho
        refine ⟨by omega, by simp, ?_, ?_, ?_⟩
        · intro extra
          rw [List.cons_append, List.foldl_cons, hstep, foldl_stepBit_fail]
        · rw [show pos + 1 - pos = 1 by omega]
          rw [show (bb :: bs).take 1 = [bb] by simp]
          simp only [List.foldl_cons, List.foldl_nil, hstep]
        · refine ⟨cur, num, ?_⟩
          rw [show pos + 1 - pos - 1 = 0 by omega]
          simp
    · rw [foldl_stepBit_done root expected _ cur num out pos hnum] at h
      simp at h

theorem byteBits_length (n : Nat) : (byteBits n).length = 8 := rfl

theorem bytesToBits_length : ∀ l : List Nat, (bytesToBits l).length = 8 * l.length := by
  intro l
  induction l with
  | nil => rfl
  | cons b bs ih =>
    simp only [bytesToBits, List.length_append, byteBits_length, ih, List.length_cons]
    ring

/-- Claim C7: when a bit leads to an absent child, the decoder reports the
1-based bit position of that bit, stops immediately — appending further
payload cannot change the result, and the bits up to the offending one
already determine it — keeps the partial output, and main exits 1 with
that output. -/
theorem claim7_invalid_codeword (cbLines : List (List Nat)) (payload : List Nat)
    (p : Nat) (out : List Nat)
    (h : decodeBits (readCodebook cbLines).1 (readCodebook cbLines).2
        (bytesToBits payload) = .fail p out) :
    decodeMain cbLines payload = (out, 1) ∧
    1 ≤ p ∧ p ≤ 8 * payload.length ∧
    (∀ extra, decodeBits (readCodebook cbLines).1 (readCodebook cbLines).2
        (bytesToBits payload ++ extra) = .fail p out) ∧
    decodeBits (readCodebook cbLines).1 (readCodebook cbLines).2
        ((bytesToBits payload).take p) = .fail p out ∧
    (∃ cur2 num2, decodeBits (readCodebook cbLines).1 (readCodebook cbLines).2
        ((bytesToBits payload).take (p - 1)) = .run cur2 num2 out (p - 1)) := by
  have hmain : decodeMain cbLines payload = (out, 1) := by
    simp [decodeMain, h]
  obtain ⟨h1, h2, h3, h4, cur2, num2, h5⟩ :=
    decode_fail_anatomy (readCodebook cbLines).1 (readCodebook cbLines).2
      (bytesToBits payload) (readCodebook cbLines).1 0 [] 0 p out h
  rw [bytesToBits_length] at h2
  simp only [Nat.sub_zero] at h4 h5
  exact ⟨hmain, by omega, by omega, h3, h4, ⟨cur2, num2, h5⟩⟩

/-- Witness for claim C7: a codebook whose only code is "00" and a payload
starting with a 1-bit make the very first bit lead to an absent right
child: failure at bit position 1 with empty output and exit 1. -/
theorem claim7_invalid_codeword_witness :
    decodeBits
        (readCodebook [strBytes ("\"a\",2,0.500000000000000,\"00\",1.000000000000000\n")]).1
        (readCodebook [strBytes ("\"a\",2,0.500000000000000,\"00\",1.000000000000000\n")]).2
        (bytesToBits [128]) = DState.fail 1 [] ∧
      (decodeMain [strBytes ("\"a\",2,0.500000000000000,\"00\",1.000000000000000\n")] [128]
          = ([], 1) ∧
        1 ≤ 1 ∧ 1 ≤ 8 * [128].length ∧
        (∀ extra, decodeBits
            (readCodebook [strBytes ("\"a\",2,0.500000000000000,\"00\",1.000000000000000\n")]).1
            (readCodebook [strBytes ("\"a\",2,0.500000000000000,\"00\",1.000000000000000\n")]).2
            (bytesToBits [128] ++ extra) = DState.fail 1 []) ∧
        decodeBits
            (readCodebook [strBytes ("\"a\",2,0.500000000000000,\"00\",1.000000000000000\n")]).1
            (readCodebook [strBytes ("\"a\",2,0.500000000000000,\"00\",1.000000000000000\n")]).2
            ((bytesToBits [128]).take 1) = DState.fail 1 [] ∧
        (∃ cur2 num2, decodeBits
            (readCodebook [strBytes ("\"a\",2,0.500000000000000,\"00\",1.000000000000000\n")]).1
            (readCodebook [strBytes ("\"a\",2,0.500000000000000,\"00\",1.000000000000000\n")]).2
            ((bytesToBits [128]).take (1 - 1)) = DState.run cur2 num2 [] (1 - 1))) :=
  ⟨by decide,
    claim7_invalid_codeword [strBytes ("\"a\",2,0.500000000000000,\"00\",1.000000000000000\n")]
      [128] 1 [] (by decide)⟩

/-- Claim C5: the empty input short-circuits the encoder into an empty
codebook and empty payload with exit 0, and decoding that empty pair
builds an empty tree with expected count 0, writes nothing and exits 0. -/
theorem claim5_empty_input (fmtP fmtS : Nat → Nat → List Nat) :
    encodeMain fmtP fmtS [] = ⟨[], [], 0⟩ ∧ decodeMain [] [] = ([], 0) := by
  exact ⟨rfl, rfl⟩

/-- Claim C1 fails on the code (the claim itself is correct and the code
deviates from it): encoding the single byte 0x22 (a double quote) writes
the row "\""... whose closing-quote search stops at the escaped quote, so
the decoder skips the row, expects 0 symbols, outputs nothing and even
exits 0 — the round trip returns "" instead of "\"".  The two formatter
arguments are exactly the "%.15f" renderings the C encoder prints for this
input (probability 1.0, self-information 0.0). -/
theorem claim1_roundtrip_failure :
    decodeMain
        (encodeMain (fun _ _ => strBytes ("1.000000000000000"))
          (fun _ _ => strBytes ("0.000000000000000")) [34]).lines
        (encodeMain (fun _ _ => strBytes ("1.000000000000000"))
          (fun _ _ => strBytes ("0.000000000000000")) [34]).payload
      = ([], 0) ∧ ([] : List Nat) ≠ [34] := by
  exact ⟨by decide, by decide⟩

end HuffSpec
